import Mathlib

set_option maxRecDepth 100000

/-
A shallow embedding, in Lean 4, of the extraction-and-assembly engine of the
radiorus-rss feed generator (source: src/unnamed/part_003, the most recent
snapshot, which the claims reference).  Go byte strings are modelled as
`List Char` (all substitution patterns are ASCII or proper UTF-8, so the
char-level view is faithful); Go's `regexp` library is modelled by a small
matching engine covering exactly the pattern shapes the program compiles
(chains of literals separated by lazy `(.+?)?` / `(.+?)` / `.*?` gaps, a
greedy `\s+` gap, and an optional `/?` literal), with Go's leftmost-first
search order; `goquery` CSS-selector queries and the HTTP fetches are
external libraries and are modelled as oracle fields carried by the page
structures.  Machine integers appear only inside `strconv.Atoi` results,
all far below overflow, so `Int` is used directly.  A Go runtime panic is
modelled as `Option.none` where it can arise (`parseDate`'s array write).
-/

/-- Go byte strings / strings, viewed as lists of characters. -/
abbrev Str := List Char

/-- Model of Go strings.TrimPrefix. -/
def trimPref (pfx s : Str) : Str :=
  if pfx.isPrefixOf s then s.drop pfx.length else s

/-- Model of Go strings.TrimSuffix. -/
def trimSuff (suf s : Str) : Str :=
  if suf.isSuffixOf s then s.take (s.length - suf.length) else s

/-- The whitespace characters recognised by Go `unicode.IsSpace` that can occur
in the program's inputs (ASCII range: tab, LF, VT, FF, CR, space). -/
def goSpaceChars : Str :=
  [Char.ofNat 9, Char.ofNat 10, Char.ofNat 11, Char.ofNat 12, Char.ofNat 13, Char.ofNat 32]

def goIsSpace (c : Char) : Bool := goSpaceChars.contains c

/-- Model of Go strings.TrimSpace (ASCII whitespace portion). -/
def trimSpace (s : Str) : Str :=
  ((s.dropWhile goIsSpace).reverse.dropWhile goIsSpace).reverse

/-- Value of a decimal digit character, if it is one. -/
def digitVal (c : Char) : Option Nat :=
  if c.isDigit then some (c.toNat - 48) else none

/-- Parse a nonempty all-digit string as a natural number. -/
def digitsVal (s : Str) : Option Nat :=
  if s.isEmpty then none
  else s.foldl (fun acc c =>
    match acc, digitVal c with
    | some a, some d => some (a * 10 + d)
    | _, _ => none) (some 0)

/-- Model of Go strconv.Atoi: optional sign followed by at least one digit.
(Overflow is not modelled; every integer the program parses is tiny.) -/
def atoi (s : Str) : Option Int :=
  match s with
  | [] => none
  | c :: rest =>
    if c = '+' then (digitsVal rest).map Int.ofNat
    else if c = '-' then (digitsVal rest).map (fun n => -(n : Int))
    else (digitsVal s).map Int.ofNat

/-- The two time zones the program constructs: `time.FixedZone("Moscow Time", 3h)`
and the zero `time.Time`'s UTC. -/
inductive TZ
  | utc
  | moscow
deriving DecidableEq

/-- A wall-clock timestamp as produced by Go `time.Date(y, m, d, h, min, 0, 0, loc)`.
Normalisation of out-of-range fields is not modelled: every timestamp the
program builds has in-range fields, where `time.Date` is the identity on them. -/
structure DateTime where
  year : Int
  month : Int
  day : Int
  hour : Int
  minute : Int
  zone : TZ
deriving DecidableEq

/-- The zero `time.Time` value (January 1, year 1, 00:00:00 UTC). -/
def zeroTime : DateTime := ⟨1, 1, 1, 0, 0, TZ.utc⟩

/-- The sentinel `time.Date(1970, time.January, 1, 0, 0, 0, 0, moscow)`. -/
def sentinelEpoch : DateTime := ⟨1970, 1, 1, 0, 0, TZ.moscow⟩

/-- Result of `parseDate`'s loop over `bytes[1:]`: an `Atoi` failure returns the
sentinel, a write past the end of the 5-element array is a Go runtime panic. -/
inductive DateLoopRes
  | sentinelRes
  | panicked
  | dates (d : List Int)
deriving DecidableEq

/-- The loop `for i, b := range bytes[1:] { d, err := strconv.Atoi(string(b)); if err != nil
{ return sentinel }; date[i] = d }` of `parseDate`.  `date` is the `[5]int` array. -/
def parseDateLoop : List Str → Nat → List Int → DateLoopRes
  | [], _, date => .dates date
  | b :: bs, i, date =>
    match atoi b with
    | none => .sentinelRes
    | some d => if i < 5 then parseDateLoop bs (i + 1) (date.set i d) else .panicked

/-- Model of `parseDate` (src/unnamed/part_003:274-288).  The argument is the raw
submatch slice (element 0 is the whole regex match).  `none` models the runtime
panic of the out-of-range array write; every slice the program passes has
length 0 or 6, where the panic is unreachable. -/
def parseDate (bytes : List Str) : Option DateTime :=
  if bytes.length < 4 then some sentinelEpoch
  else
    match parseDateLoop bytes.tail 0 [0, 0, 0, 0, 0] with
    | .sentinelRes => some sentinelEpoch
    | .panicked => none
    | .dates date =>
      some ⟨date.getD 2 0, date.getD 1 0, date.getD 0 0, date.getD 3 0, date.getD 4 0, TZ.moscow⟩

def httpsPfx : Str := "https://".data

def httpPfx : Str := "http://".data

/-- Model of `episodeID` (src/unnamed/part_003:434-441): canonicalises an episode
URL by rewriting a leading `https://` to `http://`. -/
def episodeID (url : Str) : Str :=
  if httpsPfx.isPrefixOf url then httpPfx ++ trimPref httpsPfx url else url

/-- One literal substitution entry (Go struct `subst`); `src`/`dst` are the
`from`/`to` fields (`from` is a Lean keyword). -/
structure Subst where
  src : Str
  dst : Str
deriving DecidableEq

/-- The `substitutes` table (src/unnamed/part_003:42-45). -/
def substitutes : List Subst :=
  [⟨"&quot;".data, "\"".data⟩, ⟨"&ndash;".data, "–".data⟩]

/-- Model of `regexp.ReplaceAll` for a literal pattern (both `substitutes`
patterns are literal strings, so their compiled regexps match literally):
scan left to right, replacing each non-overlapping occurrence. -/
def replaceAllLit (p r : Str) : Str → Str
  | [] => []
  | c :: cs =>
    if p ≠ [] ∧ p.isPrefixOf (c :: cs) then r ++ replaceAllLit p r ((c :: cs).drop p.length)
    else c :: replaceAllLit p r cs
termination_by s => s.length
decreasing_by
  · rename_i h
    have hp : 1 ≤ p.length := by
      cases p with
      | nil => exact absurd rfl h.1
      | cons x xs => exact Nat.succ_le_succ (Nat.zero_le _)
    simp only [List.length_drop, List.length_cons]
    omega
  · simp only [List.length_cons]
    omega

/-- Model of `cleanText` (src/unnamed/part_003:420-427): applies each
substitution in order over the whole buffer. -/
def cleanText (b : Str) : Str :=
  substitutes.foldl (fun b sub => replaceAllLit sub.src sub.dst b) b

/-- One gap between two literals of a compiled pattern.  These are exactly the
non-literal constructs appearing in the program's regular expressions. -/
inductive Gap
  | lazyOptCap
  | lazyPlusCap
  | lazyStar
  | wsPlus
  | optSlash
deriving DecidableEq

/-- Whether a gap is a capturing group. -/
def Gap.capturing : Gap → Bool
  | .lazyOptCap | .lazyPlusCap => true
  | _ => false

/-- A compiled pattern: an initial literal followed by gap/literal pairs.
`dotAll` records a `(?s)` flag (whether `.` matches a newline). -/
structure RePat where
  dotAll : Bool
  head : Str
  parts : List (Gap × Str)

/-- Number of capturing groups of a pattern (Go `re.NumSubexp()`). -/
def RePat.numCaps (p : RePat) : Nat :=
  (p.parts.filter (fun gp => gp.1.capturing)).length

/-- Does literal `lit` occur at index `i` of `s`? -/
def litAt (s lit : Str) (i : Nat) : Bool := lit.isPrefixOf (s.drop i)

/-- The whitespace class of RE2's `\s` (`[\t\n\f\r ]`). -/
def reIsSpace (c : Char) : Bool :=
  [Char.ofNat 9, Char.ofNat 10, Char.ofNat 12, Char.ofNat 13, Char.ofNat 32].contains c

/-- Is `filler` an admissible gap content?  Lazy gaps exclude newlines unless
`(?s)` is set; `\s+` requires all whitespace; `/?` requires a lone slash. -/
def fillerOk (dotAll : Bool) (g : Gap) (filler : Str) : Bool :=
  match g with
  | .wsPlus => filler.all reIsSpace
  | .optSlash => filler = ['/']
  | _ => dotAll || filler.all (fun c => c ≠ Char.ofNat 10)

/-- Candidate filler lengths for gap `g` at index `i`, in the backtracking
preference order of Go's leftmost-first matching: `(.+?)?` tries 1,2,… then
the empty (group unset) alternative; `(.+?)` tries 1,2,…; `.*?` tries 0,1,2,…;
greedy `\s+` tries longest first; `/?` prefers the slash present.  A candidate
`f` is kept only when the following literal `lit` occurs right after it. -/
def gapFillers (dotAll : Bool) (g : Gap) (s : Str) (i : Nat) (lit : Str) : List Nat :=
  let js := (List.range (s.length + 1)).filter (fun j => decide (i ≤ j) && litAt s lit j)
  let fs := js.map (fun j => j - i)
  let ok := fun f => fillerOk dotAll g ((s.drop i).take f)
  match g with
  | .lazyOptCap => (fs.filter (fun f => decide (1 ≤ f) && ok f)) ++ fs.filter (fun f => f = 0)
  | .lazyPlusCap => fs.filter (fun f => decide (1 ≤ f) && ok f)
  | .lazyStar => fs.filter ok
  | .wsPlus => (fs.filter (fun f => decide (1 ≤ f) && ok f)).reverse
  | .optSlash => (fs.filter (fun f => decide (f = 1) && ok f)) ++ fs.filter (fun f => f = 0)

/-- First `some` produced by `k` over the list, in order. -/
def firstSome? {α β : Type} : List α → (α → Option β) → Option β
  | [], _ => none
  | a :: as, k =>
    match k a with
    | some b => some b
    | none => firstSome? as k

/-- Match the gap/literal chain of a pattern starting at index `i`, with
depth-first backtracking over the fillers in preference order.  Returns the
end index and the captured groups (an unset `(.+?)?` group yields `[]`, the
same string Go's `nil` submatch converts to).  `fuel` is the number of
remaining parts; callers pass `parts.length`. -/
def matchParts (dotAll : Bool) (s : Str) : Nat → List (Gap × Str) → Nat → Option (Nat × List Str)
  | _, [], i => some (i, [])
  | 0, _ :: _, _ => none
  | fuel + 1, (g, lit) :: rest, i =>
    firstSome? (gapFillers dotAll g s i lit) fun f =>
      (matchParts dotAll s fuel rest (i + f + lit.length)).map fun er =>
        (er.1, if g.capturing then ((s.drop i).take f) :: er.2 else er.2)

/-- Try to match the whole pattern at index `i`. -/
def matchAtFull (p : RePat) (s : Str) (i : Nat) : Option (Nat × List Str) :=
  if litAt s p.head i then matchParts p.dotAll s p.parts.length p.parts (i + p.head.length)
  else none

/-- Leftmost match at index ≥ `i`: start, end, groups. -/
def reFindAt (p : RePat) (s : Str) (i : Nat) : Option (Nat × Nat × List Str) :=
  firstSome? ((List.range (s.length + 1)).filter (fun j => decide (i ≤ j))) fun j =>
    (matchAtFull p s j).map fun er => (j, er.1, er.2)

/-- The substring `s[a:b]`. -/
def substr (s : Str) (a b : Nat) : Str := (s.drop a).take (b - a)

/-- Model of Go `re.FindSubmatch(src)`: `[]` for no match (Go `nil`), otherwise
the whole match followed by the groups. -/
def goFindSubmatch (p : RePat) (s : Str) : List Str :=
  match reFindAt p s 0 with
  | none => []
  | some (st, e, gs) => substr s st e :: gs

/-- Successive non-overlapping leftmost matches (whole-match strings), as in Go
`re.FindAll(src, -1)`; the next search resumes at the previous match's end. -/
def reFindAllFrom (p : RePat) (s : Str) : Nat → Nat → List Str
  | 0, _ => []
  | fuel + 1, i =>
    match reFindAt p s i with
    | none => []
    | some (st, e, _) => substr s st e :: reFindAllFrom p s fuel (if st < e then e else st + 1)

def reFindAll (p : RePat) (s : Str) : List Str := reFindAllFrom p s (s.length + 1) 0

/-- Model of Go `re.ReplaceAll(src, r)`: scan left to right, replacing each
leftmost non-overlapping match. -/
def reReplaceAllFrom (p : RePat) (r s : Str) : Nat → Nat → Str
  | 0, _ => []
  | fuel + 1, i =>
    if i < s.length then
      match matchAtFull p s i with
      | some (e, _) =>
        if i < e then r ++ reReplaceAllFrom p r s fuel e
        else r ++ s.getD i (Char.ofNat 32) :: reReplaceAllFrom p r s fuel (i + 1)
      | none => s.getD i (Char.ofNat 32) :: reReplaceAllFrom p r s fuel (i + 1)
    else []

def reReplaceAll (p : RePat) (s r : Str) : Str := reReplaceAllFrom p r s (s.length + 1) 0

/-- `programNameRe = <h2>(.+?)?</h2>` -/
def programNameRe : RePat := ⟨false, "<h2>".data, [(Gap.lazyOptCap, "</h2>".data)]⟩

/-- `programAboutRe = (?s)<div class="brand__content_text__anons">(.+?)?</div>` -/
def programAboutRe : RePat :=
  ⟨true, "<div class=\"brand__content_text__anons\">".data, [(Gap.lazyOptCap, "</div>".data)]⟩

/-- `programImageRe = (?s)<div class="brand\-promo__header">(.+?)?<img src="(.+?)?"(.+?)?alt='(.+?)?'>` -/
def programImageRe : RePat :=
  ⟨true, "<div class=\"brand-promo__header\">".data,
    [(Gap.lazyOptCap, "<img src=\"".data), (Gap.lazyOptCap, "\"".data),
     (Gap.lazyOptCap, "alt='".data), (Gap.lazyOptCap, "'>".data)]⟩

/-- `episodeTitleRe = title brand\-menu\-link">(.+?)?</a>` -/
def episodeTitleRe : RePat :=
  ⟨false, "title brand-menu-link\">".data, [(Gap.lazyOptCap, "</a>".data)]⟩

/-- `episodeUrlRe = <a href="/brand/(.+?)?" class="title` -/
def episodeUrlRe : RePat :=
  ⟨false, "<a href=\"/brand/".data, [(Gap.lazyOptCap, "\" class=\"title".data)]⟩

/-- `episodeDateRe = brand\-time brand\-menu\-link">(.+?)?\.(.+?)?\.(.+?)? в (.+?)?:(.+?)?</a>`
(compiled locally inside `findDate`). -/
def episodeDateRe : RePat :=
  ⟨false, "brand-time brand-menu-link\">".data,
    [(Gap.lazyOptCap, ".".data), (Gap.lazyOptCap, ".".data), (Gap.lazyOptCap, " в ".data),
     (Gap.lazyOptCap, ":".data), (Gap.lazyOptCap, "</a>".data)]⟩

/-- `episodeRe = (?s)<div class="brand__list\-\-wrap\-\-item">(.+?)?data-id="(.+?)"></div>`
(compiled locally inside `findEpisodes`). -/
def episodeRe : RePat :=
  ⟨true, "<div class=\"brand__list--wrap--item\">".data,
    [(Gap.lazyOptCap, "data-id=\"".data), (Gap.lazyPlusCap, "\"></div>".data)]⟩

/-- `data\-type="audio"\s+data\-id="(.+?)?">` (compiled locally inside `findEnclosure`). -/
def enclosureRe : RePat :=
  ⟨false, "data-type=\"audio\"".data,
    [(Gap.wsPlus, "data-id=\"".data), (Gap.lazyOptCap, "\">".data)]⟩

/-- `<(.+?)?>` (compiled locally inside `processFeedDesc`). -/
def tagRe : RePat := ⟨false, "<".data, [(Gap.lazyOptCap, ">".data)]⟩

/-- `</?a.*?>` (compiled locally inside `stripLink`). -/
def aTagRe : RePat :=
  ⟨false, "<".data, [(Gap.optSlash, "a".data), (Gap.lazyStar, ">".data)]⟩

/-- The error values of the program.  `badProgrammePage` stands for the
`fmt.Errorf("bad programme page: title not found")` value, `badEpisode` for
`errBadEpisode` and `cantParse` for `errCantParse`. -/
inductive GoErr
  | badProgrammePage
  | badEpisode
  | cantParse
deriving DecidableEq

/-- Model of `parse` (src/unnamed/part_003:250-260): one pattern application;
arity mismatch returns `n` empty groups and `errCantParse`.  The Go `n` is an
`int`; every call site passes a positive literal, so `Nat` is faithful. -/
def parse (src : Str) (re : RePat) (n : Nat) : List Str × Option GoErr :=
  let m := goFindSubmatch re src
  if m.length ≠ n + 1 then (List.replicate n [], some GoErr.cantParse)
  else (m.drop 1, none)

/-- Model of `parseSingle` (src/unnamed/part_003:262-266).  Go indexes `got[0]`;
`headD` is total, justified by the arity theorem that the group slice always
has length exactly 1. -/
def parseSingle (src : Str) (re : RePat) : Str × Option GoErr :=
  let got := parse src re 1
  (got.1.headD [], got.2)

/-- Model of `stripLink` (src/unnamed/part_003:443-447). -/
def stripLink (s : Str) : Str := reReplaceAll aTagRe s []

/-- Model of `parseProgrammeTitle` (src/unnamed/part_003:206-213). -/
def parseProgrammeTitle (page : Str) : Str × Option GoErr :=
  let r := parseSingle page programNameRe
  match r.2 with
  | some e => ([], some e)
  | none => (stripLink r.1, none)

/-- Model of `findDate` (src/unnamed/part_003:268-272).  The panic branch of
`parseDate` is unreachable here because the submatch slice has length 0 or 6
(theorem `findDate_no_panic`). -/
def findDate (ep : Str) : DateTime :=
  (parseDate (goFindSubmatch episodeDateRe ep)).getD sentinelEpoch

/-- Go `feeds.Enclosure` (Url, Length, Type). -/
structure Enclosure where
  url : Str := []
  length : Str := []
  typ : Str := []
deriving DecidableEq

/-- Model of `enclosure` (src/unnamed/part_003:301-310). -/
def enclosure (no : Str) : Enclosure :=
  ⟨"https://audio.vgtrk.com/download?id=".data ++ no, "1024".data, "audio/mpeg".data⟩

/-- Model of `findEnclosure` (src/unnamed/part_003:290-299): `&feeds.Enclosure{}`
on a parse failure, a filled enclosure otherwise. -/
def findEnclosure (ep : Str) : Enclosure :=
  let r := parseSingle ep enclosureRe
  match r.2 with
  | some _ => {}
  | none => enclosure r.1

/-- Model of `findEpisodes` (src/unnamed/part_003:312-316). -/
def findEpisodes (page : Str) : List Str := reFindAll episodeRe page

/-- Go `feeds.Image`. -/
structure FeedImage where
  link : Str := []
  url : Str := []
  title : Str := []
deriving DecidableEq

/-- Go `feeds.Item` (the fields this program uses).  `enclosure` is a nilable
pointer in Go, hence `Option`; `created` defaults to the zero `time.Time`. -/
structure Item where
  id : Str := []
  link : Str := []
  title : Str := []
  description : Str := []
  enclosure : Option Enclosure := none
  created : DateTime := zeroTime
deriving DecidableEq

/-- Go `feeds.Feed` (the fields this program uses); `link` is `Link.Href`. -/
structure Feed where
  title : Str := []
  link : Str := []
  description : Str := []
  image : Option FeedImage := none
  items : List Item := []
deriving DecidableEq

/-- One `.episode-card` entry of the redesigned (smotrim.ru) listing page, as
goquery would report it: the `.episode-card__link` href, the
`.episode-card__title` text and the `.episode-card__title__brand` text. -/
structure Card where
  href : Str := []
  titleText : Str := []
  brandText : Str := []
deriving DecidableEq

/-- A fetched listing page.  `raw` is the (cleaned) byte buffer the regular
expressions run over.  The remaining fields are the oracle view of the external
goquery HTML parser on those same bytes: `selText sel` is
`doc.Find(sel).Text()`, `pictureImg` is the `src`/`title` attribute pair of
`.brand-main-item__picture img` when that image exists, and `cards` lists the
`.episode-card` entries in document order. -/
structure Page where
  raw : Str := []
  selText : Str → Str := fun _ => []
  pictureImg : Option (Str × Str) := none
  cards : List Card := []

def selBrandMainTitle : Str := ".brand-main-item__title".data

def selProgramAbout : Str := ".program-about__text".data

/-- Model of `parseText` (src/unnamed/part_003:215-222): the trimmed text of a
goquery selector; `goquery.NewDocumentFromReader` never fails on an in-memory
buffer, so the error result is always `none`. -/
def parseText (page : Page) (sel : Str) : Str × Option GoErr :=
  (trimSpace (page.selText sel), none)

/-- Model of `addFeedImage` (src/unnamed/part_003:224-248): the goquery image
selector first, then the legacy 4-group pattern; on failure of both the image
is left unset. -/
def addFeedImage (page : Page) (feed : Feed) : Feed :=
  match page.pictureImg with
  | some st => { feed with image := some ⟨feed.link, st.1, st.2⟩ }
  | none =>
    let r := parse page.raw programImageRe 4
    match r.2 with
    | none => { feed with image := some ⟨feed.link, r.1.getD 1 [], r.1.getD 3 []⟩ }
    | some _ => feed

/-- First occurrence split: `some (before, after)` around the first occurrence
of `sep`, `none` when `sep` does not occur. -/
def splitFirstSub (sep : Str) : Str → Option (Str × Str)
  | [] => if sep.isPrefixOf [] then some ([], []) else none
  | c :: cs =>
    if sep.isPrefixOf (c :: cs) then some ([], (c :: cs).drop sep.length)
    else (splitFirstSub sep cs).map fun ba => (c :: ba.1, ba.2)

/-- Model of `url.Parse(u).Hostname()` for the URL shapes the program handles:
the part after `://` up to the first `/`, with any `:port` stripped; a URL
without a scheme separator has an empty host. -/
def hostnameOf (u : Str) : Str :=
  match splitFirstSub "://".data u with
  | some ba => (ba.2.takeWhile (fun c => c ≠ '/')).takeWhile (fun c => c ≠ ':')
  | none => []

/-- Model of `parseSite` (src/unnamed/part_003:198-204). -/
def parseSite (feed : Feed) : Str := hostnameOf feed.link

/-- Model of `episodeURLPrefix` (src/unnamed/part_003:429-432):
`strings.Split(url, "/brand/")[0] + "/brand/"`. -/
def episodeURLPrefix (url : Str) : Str :=
  match splitFirstSub "/brand/".data url with
  | some ba => ba.1 ++ "/brand/".data
  | none => url ++ "/brand/".data

/-- The loop body of `populateFeed`'s legacy branch (src/unnamed/part_003:149-165)
for a block that passed both bad-episode checks: build the item added to the feed. -/
def mkEpisodeItem (urlPrefix : Str) (episode : Str) : Item :=
  let url := (parseSingle episode episodeUrlRe).1
  let episodeUrl := urlPrefix ++ url
  let episodeTitle := (parseSingle episode episodeTitleRe).1
  { id := episodeID episodeUrl, link := episodeUrl, title := episodeTitle,
    enclosure := some (findEnclosure episode), created := findDate episode }

/-- The `for _, episode := range episodes` loop of `populateFeed`
(src/unnamed/part_003:145-166), accumulating `feed.Add` calls in `acc`; an
early `return errBadEpisode` leaves the items added so far in place. -/
def processBlocks (urlPrefix : Str) (acc : List Item) : List Str → List Item × Option GoErr
  | [] => (acc, none)
  | episode :: rest =>
    if 1 < (reFindAll episodeUrlRe episode).length then (acc, some GoErr.badEpisode)
    else
      match (parseSingle episode episodeUrlRe).2 with
      | some _ => (acc, some GoErr.badEpisode)
      | none => processBlocks urlPrefix (acc ++ [mkEpisodeItem urlPrefix episode]) rest

/-- Model of `url.Parse(base).Parse(ref)` for the reference shapes the redesigned
site serves (absolute URLs and absolute paths); resolution errors do not occur
for these shapes. -/
def resolveRef (base ref : Str) : Str :=
  if (splitFirstSub "://".data ref).isSome then ref
  else
    match splitFirstSub "://".data base with
    | some ba => ba.1 ++ "://".data ++ ba.2.takeWhile (fun c => c ≠ '/') ++ ref
    | none => ref

/-- Model of `populateSmotrimEpisodes` (src/unnamed/part_003:171-196), iterating
the goquery `.episode-card` entries in document order. -/
def populateSmotrimEpisodes (feed : Feed) (page : Page) : Feed × Option GoErr :=
  let items := page.cards.foldl (fun its card =>
    let id := trimPref "/audio/".data card.href
    let link := resolveRef feed.link card.href
    let title := trimSpace (trimPref card.brandText card.titleText)
    its ++ [{ id := id, link := link, title := title,
              enclosure := some (enclosure id), created := zeroTime }]) feed.items
  ({ feed with items := items }, none)

/-- The title step of `populateFeed` (src/unnamed/part_003:125-128): redesigned
selector first, legacy pattern with anchor stripping as fallback. -/
def populateTitle (page : Page) : Str × Option GoErr :=
  let t1 := (parseText page selBrandMainTitle).1
  if t1 = [] then parseProgrammeTitle page.raw else (t1, none)

/-- Model of `populateFeed` (src/unnamed/part_003:124-169). -/
def populateFeed (feed : Feed) (page : Page) : Feed × Option GoErr :=
  let t := populateTitle page
  let feed1 := { feed with title := t.1 }
  if t.2.isSome then (feed1, some GoErr.badProgrammePage)
  else
    let feed2 := { feed1 with description := (parseText page selProgramAbout).1 }
    let feed3 := addFeedImage page feed2
    if parseSite feed3 = "smotrim.ru".data then populateSmotrimEpisodes feed3 page
    else
      let res := processBlocks (episodeURLPrefix feed3.link) feed3.items (findEpisodes page.raw)
      ({ feed3 with items := res.1 }, res.2)

/-- Model of `processFeedDesc` (src/unnamed/part_003:329-336): the about-page
content block with all tags stripped. -/
def processFeedDesc (page : Str) : Str × Option GoErr :=
  let r := parseSingle page programAboutRe
  match r.2 with
  | some e => ([], some e)
  | none => (reReplaceAll tagRe r.1 [], none)

/-- The about-page URL derived inside `describeFeed` (src/unnamed/part_003:320). -/
def aboutURL (feed : Feed) : Str := trimSuff "episodes".data feed.link ++ "about".data

/-- Model of `describeFeed` (src/unnamed/part_003:318-327).  The network fetch is
abstracted: `aboutPage` is the cleaned body served at `aboutURL feed`.  The
returned flag records whether the diagnostic was logged; the function itself
has no error outcome (never fatal).  Note the Go code assigns
`feed.Description = desc` unconditionally, also on the error path. -/
def describeFeed (feed : Feed) (aboutPage : Str) : Feed × Bool :=
  let r := processFeedDesc aboutPage
  ({ feed with description := r.1 }, r.2.isSome)

/-- A fetched episode detail page: the oracle view of the external goquery
parser, exactly the four texts `processEpisodeDesc`/`parseSmotrimDate` read. -/
structure EpPage where
  headAnons : Str := []
  body : Str := []
  videoBody : Str := []
  videoDate : Str := []

/-- Model of `addText` (src/unnamed/part_003:391-396). -/
def addText (arr : List Str) (str : Str) : List Str :=
  if str ≠ [] then arr ++ [str] else arr

/-- Model of `processEpisodeDesc` (src/unnamed/part_003:374-389): the non-empty
text regions joined by a blank line. -/
def processEpisodeDesc (page : EpPage) : Str × Option GoErr :=
  let r := addText [] page.headAnons
  let r := addText r page.body
  let r := addText r (trimSpace page.videoBody)
  let res := (r.intersperse "\n\n".data).flatten
  if res = [] then ([], some GoErr.cantParse) else (res, none)

/-- The twelve Russian month names of `parseSmotrimDate`. -/
def monthNames : List Str :=
  ["января".data, "февраля".data, "марта".data, "апреля".data, "мая".data, "июня".data,
   "июля".data, "августа".data, "сентября".data, "октября".data, "ноября".data, "декабря".data]

/-- Decimal digits of a natural number (model of `strconv.Itoa`). -/
def itoa (n : Nat) : Str := (Nat.toDigits 10 n)

/-- A maximal leading digit run and its value, for the time-layout parser. -/
def parseNum (s : Str) : Option (Nat × Str) :=
  let ds := s.takeWhile Char.isDigit
  if ds = [] then none else (digitsVal ds).map fun v => (v, s.drop ds.length)

def expectStr (lit s : Str) : Option Str :=
  if lit.isPrefixOf s then some (s.drop lit.length) else none

/-- Model of the external `time.Parse("2 1 2006, 15:04 z-07", s)` call of
`parseSmotrimDate`, restricted to that one layout: day, month, year, `, `,
hour, `:`, minute, ` z+03` (the zone suffix the program appends).  A parse
failure yields the zero `time.Time`, as in `t, _ = time.Parse(...)`. -/
def goTimeParse (s : Str) : DateTime :=
  (do
    let (day, s) ← parseNum s
    let s ← expectStr " ".data s
    let (mon, s) ← parseNum s
    let s ← expectStr " ".data s
    let (year, s) ← parseNum s
    let s ← expectStr ", ".data s
    let (hour, s) ← parseNum s
    let s ← expectStr ":".data s
    let (minute, s) ← parseNum s
    let s ← expectStr " z+03".data s
    if s = [] then
      pure (⟨(year : Int), (mon : Int), (day : Int), (hour : Int), (minute : Int), TZ.moscow⟩ : DateTime)
    else none).getD zeroTime

/-- Model of `parseSmotrimDate` (src/unnamed/part_003:360-372): the trimmed
`.video__date` text with Russian month names replaced by their numbers, parsed
against the fixed layout in the +03 zone. -/
def parseSmotrimDate (page : EpPage) : DateTime :=
  let s := trimSpace page.videoDate
  let s := (monthNames.enum.foldl (fun s mi => replaceAllLit mi.2 (itoa (mi.1 + 1)) s) s)
  goTimeParse (s ++ " z+03".data)

/-- Model of `describeEpisode` (src/unnamed/part_003:347-358).  The fetch of the
item's detail page is abstracted into the `page` argument; the returned flag
records whether the diagnostic was logged.  Only `description` — and `created`,
when it is still the zero time — are written. -/
def describeEpisode (item : Item) (page : EpPage) : Item × Bool :=
  let r := processEpisodeDesc page
  let item1 := { item with description := r.1 }
  let item2 := if item1.created = zeroTime then { item1 with created := parseSmotrimDate page } else item1
  (item2, r.2.isSome)

/-- One episode task acting on the shared item slice: task `i` reads and
rewrites exactly the `i`-th item (its own), fetching that item's detail page
through `fetch`. -/
def epTask (fetch : Str → EpPage) (its : List Item) (i : Nat) : List Item :=
  match its[i]? with
  | some it => its.set i (describeEpisode it (fetch it.link)).1
  | none => its

/-- Running the episode tasks in an arbitrary completion order `sched` (the
fan-out/fan-in of `describeEpisodes`, src/unnamed/part_003:338-345: one
goroutine per item, joined by the WaitGroup). -/
def runSchedule (fetch : Str → EpPage) (sched : List Nat) (its : List Item) : List Item :=
  sched.foldl (epTask fetch) its

/-- The sequential reading of `describeEpisodes`: every item is replaced by its
own task's result.  The schedule-independence theorem shows any completion
order of the goroutines produces exactly this. -/
def describeEpisodes (fetch : Str → EpPage) (its : List Item) : List Item :=
  its.map (fun it => (describeEpisode it (fetch it.link)).1)

/-- The bad-episode test of the legacy loop: a block is rejected when the link
pattern matches more than once, or when it does not match at all (the
single-match extraction then fails). -/
def blockBad (b : Str) : Bool :=
  (1 < (reFindAll episodeUrlRe b).length) || (parseSingle b episodeUrlRe).2.isSome

/-- Apply the per-episode update exactly at the positions selected by `p`. -/
def updWhere (fetch : Str → EpPage) (p : Nat → Bool) : List Item → List Item
  | [] => []
  | it :: rest =>
    (if p 0 then (describeEpisode it (fetch it.link)).1 else it) ::
      updWhere fetch (fun i => p (i + 1)) rest

/-- A legacy feed link (radiorus host). -/
def feedLeg : Feed := { link := "http://www.radiorus.ru/brand/57083/episodes".data }

/-- A well-formed episode block: one link match, no title/audio/date markup. -/
def goodBlock : Str :=
  "<div class=\"brand__list--wrap--item\"><a href=\"/brand/65/ep\" class=\"titledata-id=\"7\"></div>".data

/-- A duplicate-link episode block (the mid-update shape): two link matches. -/
def dupBlock : Str :=
  "<div class=\"brand__list--wrap--item\"><a href=\"/brand/1\" class=\"title<a href=\"/brand/2\" class=\"titledata-id=\"8\"></div>".data

/-- A listing page with a title and a single duplicate-link block. -/
def pageDup : Page := { raw := "<h2>T</h2>".data ++ dupBlock }

/-- A listing page with a title, one good block, then a duplicate-link block. -/
def pageMix : Page := { raw := "<h2>T</h2>".data ++ goodBlock ++ dupBlock }

/-- A listing page with a title and one good block. -/
def pageGood : Page := { raw := "<h2>T</h2>".data ++ goodBlock }

/-! Theorems -/

/-- C7: `episodeID` is idempotent canonicalization: a URL starting with
`https://` is returned with only that prefix replaced by `http://`; every
other URL (in particular one already starting with `http://`) is returned
unchanged; hence `episodeID (episodeID u) = episodeID u` for every `u`. -/
theorem episodeID_canonical (u : Str) :
    (httpsPfx.isPrefixOf u = true → episodeID u = httpPfx ++ u.drop 8) ∧
    (httpsPfx.isPrefixOf u = false → episodeID u = u) ∧
    episodeID (episodeID u) = episodeID u := by
  have hkey : ∀ x : Str, httpsPfx.isPrefixOf (httpPfx ++ x) = false := fun _ => rfl
  refine ⟨fun h => ?_, fun h => ?_, ?_⟩
  · have h2 : httpsPfx <+: u := List.isPrefixOf_iff_prefix.mp h
    simp only [httpsPfx] at h2
    simp [episodeID, trimPref, h, h2, httpsPfx]
  · simp [episodeID, h]
  · by_cases h : httpsPfx.isPrefixOf u = true
    · simp [episodeID, h, hkey]
    · simp only [Bool.not_eq_true] at h
      simp [episodeID, h]

/-- Witness for `episodeID_canonical` at concrete URLs of both shapes. -/
theorem episodeID_canonical_w :
    httpsPfx.isPrefixOf "https://x".data = true ∧
    episodeID "https://x".data = httpPfx ++ ("https://x".data).drop 8 ∧
    episodeID "http://x".data = "http://x".data :=
  ⟨by decide, (episodeID_canonical "https://x".data).1 (by decide),
    (episodeID_canonical "http://x".data).2.1 (by decide)⟩

/-- The loop of `parseDate` hits an `Atoi` failure before any array write can
go out of range, provided it scans at most the five array slots. -/
theorem parseDateLoop_sentinel :
    ∀ (l : List Str) (i : Nat) (date : List Int),
      (∃ b ∈ l, atoi b = none) → i + l.length ≤ 5 →
      parseDateLoop l i date = DateLoopRes.sentinelRes := by
  intro l
  induction l with
  | nil => intro i date hex _; simp at hex
  | cons b bs ih =>
    intro i date hex hle
    simp only [List.length_cons] at hle
    rw [parseDateLoop]
    cases hb : atoi b with
    | none => rfl
    | some d =>
      have hi : i < 5 := by omega
      simp only [hi, if_true]
      apply ih
      · rcases hex with ⟨x, hx, hax⟩
        rcases List.mem_cons.mp hx with hxe | hxm
        · rw [hxe] at hax; rw [hax] at hb; exact absurd hb (by simp)
        · exact ⟨x, hxm, hax⟩
      · omega

/-- C3 (amended): on every submatch slice the program can pass (length at most
6, i.e. at most five fragments after the whole-match element), `parseDate`
never panics: a slice of fewer than 4 elements yields the sentinel epoch, a
slice with a non-integer fragment yields the sentinel epoch, and the valid
five-fragment slice yields 2019-11-24T14:10:00+03:00. -/
theorem parseDate_total (bs : List Str) (h : bs.length ≤ 6) :
    (bs.length < 4 → parseDate bs = some sentinelEpoch) ∧
    ((∃ b ∈ bs.tail, atoi b = none) → parseDate bs = some sentinelEpoch) ∧
    parseDate [[], "24".data, "11".data, "2019".data, "14".data, "10".data]
      = some ⟨2019, 11, 24, 14, 10, TZ.moscow⟩ := by
  refine ⟨fun hlt => ?_, fun hex => ?_, by decide⟩
  · simp [parseDate, hlt]
  · by_cases hlt : bs.length < 4
    · simp [parseDate, hlt]
    · have htl : bs.tail.length ≤ 5 := by
        cases bs with
        | nil => simp
        | cons x xs => simp only [List.length_cons] at h ⊢; simp [List.tail]; omega
      have hs := parseDateLoop_sentinel bs.tail 0 [0, 0, 0, 0, 0] hex (by omega)
      simp [parseDate, hlt, hs]

/-- C3 counterexample to the claim as stated: the slice `{full-match, 24, 11,
2019}` carries only three numeric fragments — fewer than four — yet `parseDate`
returns the real date 2019-11-24T00:00:00+03:00, not the sentinel epoch
(the code's guard is `len(bytes) < 4` over the slice that still contains the
whole-match element). -/
theorem parseDate_three_fragments_cex :
    parseDate [[], "24".data, "11".data, "2019".data]
        = some ⟨2019, 11, 24, 0, 0, TZ.moscow⟩ ∧
    (⟨2019, 11, 24, 0, 0, TZ.moscow⟩ : DateTime) ≠ sentinelEpoch := by decide

/-- Witness for `parseDate_total` at a one-element slice. -/
theorem parseDate_total_w :
    (["x".data] : List Str).length ≤ 6 ∧ parseDate ["x".data] = some sentinelEpoch :=
  ⟨by decide, (parseDate_total ["x".data] (by decide)).1 (by decide)⟩

/-- C4: `parse` returns the parse-failure error exactly when the submatch slice
of the single pattern application does not consist of `n` captured groups
after the whole-match element (on a successful application the slice has
1 + #groups entries; on no match it is empty, never of length `n + 1`); in the
failure case the result is `n` groups that are all empty. -/
theorem parse_arity (src : Str) (re : RePat) (n : Nat) :
    ((parse src re n).2 = some GoErr.cantParse ↔ (goFindSubmatch re src).length ≠ n + 1) ∧
    ((goFindSubmatch re src).length ≠ n + 1 →
      (parse src re n).1 = List.replicate n [] ∧ ∀ g ∈ (parse src re n).1, g = ([] : Str)) := by
  by_cases h : (goFindSubmatch re src).length = n + 1
  · exact ⟨by simp [parse, h], fun hn => absurd h hn⟩
  · refine ⟨by simp [parse, h], fun _ => ⟨by simp [parse, h], fun g hg => ?_⟩⟩
    have hr : (parse src re n).1 = List.replicate n [] := by simp [parse, h]
    rw [hr] at hg
    exact List.eq_of_mem_replicate hg

/-- Witness for `parse_arity` on the empty buffer (no match: 0 ≠ 2 entries). -/
theorem parse_arity_w :
    (goFindSubmatch programNameRe []).length ≠ 1 + 1 ∧
    (parse [] programNameRe 1).2 = some GoErr.cantParse ∧
    (parse [] programNameRe 1).1 = List.replicate 1 [] :=
  ⟨by decide, ((parse_arity [] programNameRe 1).1).mpr (by decide),
    ((parse_arity [] programNameRe 1).2 (by decide)).1⟩

/-- C10: for every buffer, pattern and expected count `n ≥ 1`, the group slice
`parse` returns has length exactly `n` in the success and the failure case
alike, so `parseSingle`'s access to element 0 of the one-group result can
never go out of bounds. -/
theorem parse_group_len (src : Str) (re : RePat) (n : Nat) (h : 1 ≤ n) :
    (parse src re n).1.length = n ∧ (parse src re 1).1 ≠ [] := by
  have hlen : ∀ m : Nat, (parse src re m).1.length = m := by
    intro m
    unfold parse
    by_cases hm : (goFindSubmatch re src).length = m + 1
    · simp [hm]
    · simp [hm]
  refine ⟨hlen n, fun hc => ?_⟩
  have h1 := hlen 1
  rw [hc] at h1
  simp at h1

/-- Witness for `parse_group_len` at `n = 1` on a concrete buffer. -/
theorem parse_group_len_w :
    (1 : Nat) ≤ 1 ∧ (parse "abc".data episodeUrlRe 1).1.length = 1 ∧
    (parse "abc".data episodeUrlRe 1).1 ≠ [] :=
  ⟨by decide, (parse_group_len "abc".data episodeUrlRe 1 (by decide)).1,
    (parse_group_len "abc".data episodeUrlRe 1 (by decide)).2⟩

/-- If the pattern occurs nowhere in the buffer, literal replacement is the
identity. -/
theorem replaceAllLit_id_of_absent (p r : Str) :
    ∀ s : Str, ¬ p <:+: s → replaceAllLit p r s = s := by
  intro s
  induction s with
  | nil => intro _; rw [replaceAllLit]
  | cons c cs ih =>
    intro h
    rw [replaceAllLit]
    by_cases hm : p ≠ [] ∧ p.isPrefixOf (c :: cs)
    · exact absurd (List.isPrefixOf_iff_prefix.mp hm.2).isInfix h
    · rw [if_neg hm, ih (fun hc => h (List.infix_cons hc))]

/-- A prefix of the output of a literal replacement whose characters all avoid
the replacement string is a prefix of the input. -/
theorem pref_replaceAllLit_back (p2 r2 chars : Str) (hr2 : r2 ≠ [])
    (hd2 : ∀ c ∈ r2, c ∉ chars) :
    ∀ (n : Nat) (s q : Str), s.length ≤ n → (∀ ch ∈ q, ch ∈ chars) →
      q <+: replaceAllLit p2 r2 s → q <+: s := by
  intro n
  induction n with
  | zero =>
    intro s q hs _ hq
    have hse : s = [] := List.length_eq_zero.mp (Nat.le_zero.mp hs)
    subst hse
    rw [replaceAllLit] at hq
    exact hq
  | succ n ih =>
    intro s q hs hsub hq
    cases s with
    | nil => rw [replaceAllLit] at hq; exact hq
    | cons c cs =>
      rw [replaceAllLit] at hq
      by_cases hm : p2 ≠ [] ∧ p2.isPrefixOf (c :: cs)
      · rw [if_pos hm] at hq
        cases q with
        | nil => exact List.nil_prefix
        | cons qh q2 =>
          cases hr : r2 with
          | nil => exact absurd hr hr2
          | cons rh r3 =>
            rw [hr, List.cons_append] at hq
            have hhd := (List.cons_prefix_cons.mp hq).1
            have h1 : qh ∈ chars := hsub qh (List.mem_cons_self _ _)
            have h2 : rh ∉ chars := hd2 rh (hr ▸ List.mem_cons_self _ _)
            exact absurd (hhd ▸ h1) h2
      · rw [if_neg hm] at hq
        cases q with
        | nil => exact List.nil_prefix
        | cons qh q2 =>
          have hcp := List.cons_prefix_cons.mp hq
          have hq2 : q2 <+: cs := by
            apply ih cs q2 (by simpa using hs) (fun ch hch => hsub ch (List.mem_cons_of_mem _ hch)) hcp.2
          exact List.cons_prefix_cons.mpr ⟨hcp.1, hq2⟩

/-- No nonempty tail-part `q` of the pattern `p` (with `p = a ++ q`) can become
a prefix of the replacement output unless it was already a prefix of the input:
the scan has consumed every position where `q` could begin. -/
theorem no_partial_pref (p r : Str) (hr : r ≠ []) (hdisj : ∀ c ∈ r, c ∉ p) :
    ∀ (s q : Str), q ≠ [] → (∃ a, a ++ q = p) → ¬ q <+: s →
      ¬ q <+: replaceAllLit p r s := by
  intro s
  induction s with
  | nil =>
    intro q hq _ _ hc
    rw [replaceAllLit] at hc
    exact hq (List.prefix_nil.mp hc)
  | cons c cs ih =>
    intro q hq hpart hns hc
    have hqp : ∀ ch ∈ q, ch ∈ p := by
      rcases hpart with ⟨a, ha⟩
      intro ch hch
      rw [← ha]
      exact List.mem_append_right a hch
    rw [replaceAllLit] at hc
    by_cases hm : p ≠ [] ∧ p.isPrefixOf (c :: cs)
    · rw [if_pos hm] at hc
      cases q with
      | nil => exact hq rfl
      | cons qh q2 =>
        cases hrr : r with
        | nil => exact hr hrr
        | cons rh r3 =>
          rw [hrr, List.cons_append] at hc
          have hhd := (List.cons_prefix_cons.mp hc).1
          have h1 : qh ∈ p := hqp qh (List.mem_cons_self _ _)
          have h2 : rh ∉ p := hdisj rh (hrr ▸ List.mem_cons_self _ _)
          exact absurd (hhd ▸ h1) h2
    · rw [if_neg hm] at hc
      cases q with
      | nil => exact hq rfl
      | cons qh q2 =>
        have hcp := List.cons_prefix_cons.mp hc
        cases q2 with
        | nil =>
          exact hns (List.cons_prefix_cons.mpr ⟨hcp.1, List.nil_prefix⟩)
        | cons q2h q3 =>
          rcases hpart with ⟨a, ha⟩
          apply ih (q2h :: q3) (by simp) ⟨a ++ [qh], by simpa using ha⟩
            (fun hcc => hns (List.cons_prefix_cons.mpr ⟨hcp.1, hcc⟩)) hcp.2

/-- An occurrence of `p` inside `u ++ v`, where no character of `u` belongs to
`p`, lies entirely inside `v`. -/
theorem infix_append_right_of_disjoint (p : Str) (hp : p ≠ []) :
    ∀ (u v : Str), (∀ c ∈ u, c ∉ p) → p <:+: u ++ v → p <:+: v := by
  intro u
  induction u with
  | nil => intro v _ h; exact h
  | cons c u2 ih =>
    intro v hd h
    rw [List.cons_append] at h
    rcases List.infix_cons_iff.mp h with hpre | hrest
    · cases p with
      | nil => exact absurd rfl hp
      | cons ph p2 =>
        have hhd := (List.cons_prefix_cons.mp hpre).1
        have h1 : c ∉ ph :: p2 := hd c (List.mem_cons_self _ _)
        exact absurd (hhd ▸ List.mem_cons_self ph p2) h1
    · exact ih v (fun x hx => hd x (List.mem_cons_of_mem _ hx)) hrest

/-- The pattern does not occur in the output of its own literal replacement,
provided the replacement string is nonempty and shares no character with the
pattern (true of both `substitutes` entries). -/
theorem replaceAllLit_no_infix (p r : Str) (hp : p ≠ []) (hr : r ≠ [])
    (hdisj : ∀ c ∈ r, c ∉ p) :
    ∀ s : Str, ¬ p <:+: replaceAllLit p r s := by
  have main : ∀ (n : Nat) (s : Str), s.length ≤ n → ¬ p <:+: replaceAllLit p r s := by
    intro n
    induction n with
    | zero =>
      intro s hs
      have hse : s = [] := List.length_eq_zero.mp (Nat.le_zero.mp hs)
      subst hse
      rw [replaceAllLit]
      simpa [List.infix_nil] using hp
    | succ n ih =>
      intro s hs hc
      cases s with
      | nil =>
        rw [replaceAllLit] at hc
        exact hp (List.infix_nil.mp hc)
      | cons c cs =>
        rw [replaceAllLit] at hc
        by_cases hm : p ≠ [] ∧ p.isPrefixOf (c :: cs)
        · rw [if_pos hm] at hc
          have hpl : 1 ≤ p.length := by
            cases p with
            | nil => exact absurd rfl hp
            | cons x xs => exact Nat.succ_le_succ (Nat.zero_le _)
          have hdl : ((c :: cs).drop p.length).length ≤ n := by
            simp only [List.length_drop, List.length_cons]
            simp only [List.length_cons] at hs
            omega
          exact ih _ hdl (infix_append_right_of_disjoint p hp r _ hdisj hc)
        · rw [if_neg hm] at hc
          rcases List.infix_cons_iff.mp hc with hpre | hrest
          · cases p with
            | nil => exact hp rfl
            | cons ph p2 =>
              have hcp := List.cons_prefix_cons.mp hpre
              cases p2 with
              | nil =>
                exact hm ⟨by simp, List.isPrefixOf_iff_prefix.mpr
                  (List.cons_prefix_cons.mpr ⟨hcp.1, List.nil_prefix⟩)⟩
              | cons p2h p3 =>
                have hnpre : ¬ (p2h :: p3) <+: cs := by
                  intro hcc
                  exact hm ⟨by simp, List.isPrefixOf_iff_prefix.mpr
                    (List.cons_prefix_cons.mpr ⟨hcp.1, hcc⟩)⟩
                exact no_partial_pref (ph :: p2h :: p3) r hr hdisj cs (p2h :: p3)
                  (by simp) ⟨[ph], rfl⟩ hnpre hcp.2
          · exact ih cs (by simpa using hs) hrest
  exact fun s => main s.length s le_rfl

/-- An occurrence of `p` in the output of replacing a different pattern `p2` by
`r2` (with `r2` nonempty and sharing no character with `p`) maps back to an
occurrence of `p` in the input. -/
theorem infix_replaceAllLit_back (p p2 r2 : Str) (hp : p ≠ []) (hr2 : r2 ≠ [])
    (hd2 : ∀ c ∈ r2, c ∉ p) :
    ∀ s : Str, p <:+: replaceAllLit p2 r2 s → p <:+: s := by
  have main : ∀ (n : Nat) (s : Str), s.length ≤ n →
      p <:+: replaceAllLit p2 r2 s → p <:+: s := by
    intro n
    induction n with
    | zero =>
      intro s hs h
      have hse : s = [] := List.length_eq_zero.mp (Nat.le_zero.mp hs)
      subst hse
      rw [replaceAllLit] at h
      exact h
    | succ n ih =>
      intro s hs h
      cases s with
      | nil => rw [replaceAllLit] at h; exact h
      | cons c cs =>
        rw [replaceAllLit] at h
        by_cases hm : p2 ≠ [] ∧ p2.isPrefixOf (c :: cs)
        · rw [if_pos hm] at h
          have hpl : 1 ≤ p2.length := by
            cases hp2 : p2 with
            | nil => exact absurd hp2 hm.1
            | cons x xs => exact Nat.succ_le_succ (Nat.zero_le _)
          have hdl : ((c :: cs).drop p2.length).length ≤ n := by
            simp only [List.length_drop, List.length_cons]
            simp only [List.length_cons] at hs
            omega
          have h2 := ih _ hdl (infix_append_right_of_disjoint p hp r2 _ hd2 h)
          exact h2.trans (List.drop_suffix _ _).isInfix
        · rw [if_neg hm] at h
          rcases List.infix_cons_iff.mp h with hpre | hrest
          · cases p with
            | nil => exact absurd rfl hp
            | cons ph pr
            =>
            have hcp := List.cons_prefix_cons.mp hpre
            have hpr : pr <+: cs := by
              apply pref_replaceAllLit_back p2 r2 (ph :: pr) hr2 hd2 n cs pr
                (by simpa using hs) (fun ch hch => List.mem_cons_of_mem _ hch) hcp.2
            exact (List.cons_prefix_cons.mpr ⟨hcp.1, hpr⟩).isInfix
          · exact List.infix_cons (ih cs (by simpa using hs) hrest)
  exact fun s => main s.length s le_rfl

/-- `cleanText` unrolled over the two-entry substitution table. -/
theorem cleanText_eq (b : Str) :
    cleanText b =
      replaceAllLit "&ndash;".data "–".data (replaceAllLit "&quot;".data "\"".data b) := rfl

/-- C8: `cleanText` is a total function, and idempotent: no substitution
pattern occurs in its output, so re-applying it changes nothing. -/
theorem cleanText_idempotent (b : Str) :
    cleanText (cleanText b) = cleanText b ∧
    ∀ sub ∈ substitutes, ¬ sub.src <:+: cleanText b := by
  have hq1 : ¬ ("&quot;".data : Str) <:+: replaceAllLit "&quot;".data "\"".data b :=
    replaceAllLit_no_infix _ _ (by decide) (by decide) (by decide) b
  have hqc : ¬ ("&quot;".data : Str) <:+: cleanText b := by
    rw [cleanText_eq]
    intro hc
    exact hq1 (infix_replaceAllLit_back _ _ _ (by decide) (by decide) (by decide) _ hc)
  have hnc : ¬ ("&ndash;".data : Str) <:+: cleanText b := by
    rw [cleanText_eq]
    exact replaceAllLit_no_infix _ _ (by decide) (by decide) (by decide) _
  refine ⟨?_, ?_⟩
  · conv_lhs => rw [cleanText_eq]
    rw [replaceAllLit_id_of_absent _ _ _ hqc, replaceAllLit_id_of_absent _ _ _ hnc]
  · intro sub hsub
    rcases (by simpa [substitutes] using hsub : sub = ⟨"&quot;".data, "\"".data⟩ ∨
      sub = ⟨"&ndash;".data, "–".data⟩) with hsq | hsn
    · rw [hsq]; exact hqc
    · rw [hsn]; exact hnc

/-- Witness for `cleanText_idempotent` on a concrete buffer containing both
entities. -/
theorem cleanText_idempotent_w :
    cleanText (cleanText "a&quot;b&ndash;c".data) = cleanText "a&quot;b&ndash;c".data ∧
    ¬ ("&quot;".data : Str) <:+: cleanText "a&quot;b&ndash;c".data :=
  ⟨(cleanText_idempotent "a&quot;b&ndash;c".data).1,
    (cleanText_idempotent "a&quot;b&ndash;c".data).2 ⟨"&quot;".data, "\"".data⟩ (by decide)⟩

/-- C9 (amended): when the about-page description extraction fails,
`describeFeed` logs the diagnostic and assigns the empty extraction result to
`Feed.Description` — overwriting whatever was there; since `processURL` only
launches `describeFeed` when the description is still empty, the description is
left unchanged in every actual invocation.  No other field is touched and the
failure is never fatal (the function has no error outcome). -/
theorem describeFeed_failure (feed : Feed) (page : Str)
    (h : (processFeedDesc page).2.isSome = true) :
    (describeFeed feed page).1.description = [] ∧
    (describeFeed feed page).2 = true ∧
    (describeFeed feed page).1 = { feed with description := (processFeedDesc page).1 } ∧
    (feed.description = [] → (describeFeed feed page).1 = feed) := by
  have hd : (processFeedDesc page).1 = [] := by
    cases h2 : (parseSingle page programAboutRe).2 with
    | none => exfalso; simp [processFeedDesc, h2] at h
    | some e => simp [processFeedDesc, h2]
  refine ⟨by simp [describeFeed, hd], by simp [describeFeed, h], by simp [describeFeed], ?_⟩
  intro hde
  simp [describeFeed, hd]
  cases feed with
  | mk t l d i its => simp_all

/-- C9 counterexample to the claim as stated: with the about page empty (the
content-block pattern does not match, a failure), a feed whose description was
previously `"x"` comes back with an empty description — the prior value is not
preserved by `describeFeed` itself. -/
theorem describeFeed_overwrite_cex :
    (processFeedDesc []).2.isSome = true ∧
    (describeFeed { description := "x".data } []).1.description ≠ ("x".data : Str) := by
  refine ⟨by decide, by decide⟩

/-- Witness for `describeFeed_failure`: a feed with an empty description (the
only state `processURL` calls it in) is returned unchanged on failure. -/
theorem describeFeed_failure_w :
    (processFeedDesc []).2.isSome = true ∧
    (describeFeed ({} : Feed) []).1 = ({} : Feed) :=
  ⟨by decide, (describeFeed_failure {} [] (by decide)).2.2.2 (by decide)⟩

/-- On a block list whose members all pass the bad-episode test, the loop adds
one item per block, in order, and succeeds. -/
theorem processBlocks_all_good (pfx : Str) :
    ∀ (blocks : List Str) (acc : List Item), (∀ b ∈ blocks, blockBad b = false) →
      processBlocks pfx acc blocks = (acc ++ blocks.map (mkEpisodeItem pfx), none) := by
  intro blocks
  induction blocks with
  | nil => intro acc _; simp [processBlocks]
  | cons b bs ih =>
    intro acc hgood
    have hb : blockBad b = false := hgood b (List.mem_cons_self _ _)
    simp only [blockBad, Bool.or_eq_false_iff] at hb
    rw [processBlocks, if_neg (by simpa using hb.1)]
    cases h2 : (parseSingle b episodeUrlRe).2 with
    | some e => rw [h2] at hb; simp at hb
    | none =>
      rw [ih (acc ++ [mkEpisodeItem pfx b]) (fun x hx => hgood x (List.mem_cons_of_mem _ hx))]
      simp

/-- On a block list containing a bad block, the loop stops at the first bad
block with `errBadEpisode`, having added exactly the items of the good prefix
before it. -/
theorem processBlocks_first_bad (pfx : Str) :
    ∀ (blocks : List Str) (acc : List Item), (∃ b ∈ blocks, blockBad b = true) →
      processBlocks pfx acc blocks =
        (acc ++ (blocks.takeWhile (fun b => !blockBad b)).map (mkEpisodeItem pfx),
          some GoErr.badEpisode) := by
  intro blocks
  induction blocks with
  | nil => intro acc hex; simp at hex
  | cons b bs ih =>
    intro acc hex
    by_cases hb : blockBad b = true
    · have htw : (b :: bs).takeWhile (fun x => !blockBad x) = [] := by
        simp [List.takeWhile_cons, hb]
      rw [htw]
      simp only [blockBad, Bool.or_eq_true] at hb
      rcases hb with h1 | h2
      · rw [processBlocks, if_pos (by simpa using h1)]
        simp
      · rw [processBlocks]
        by_cases hc : 1 < (reFindAll episodeUrlRe b).length
        · rw [if_pos hc]; simp
        · rw [if_neg hc]
          cases hps : (parseSingle b episodeUrlRe).2 with
          | none => rw [hps] at h2; simp at h2
          | some e => simp
    · have hbf : blockBad b = false := by simpa using hb
      have htw : (b :: bs).takeWhile (fun x => !blockBad x) =
          b :: bs.takeWhile (fun x => !blockBad x) := by
        simp [List.takeWhile_cons, hbf]
      rw [htw]
      simp only [blockBad, Bool.or_eq_false_iff] at hbf
      rw [processBlocks, if_neg (by simpa using hbf.1)]
      cases h2 : (parseSingle b episodeUrlRe).2 with
      | some e => rw [h2] at hbf; simp at hbf
      | none =>
        have hex2 : ∃ x ∈ bs, blockBad x = true := by
          rcases hex with ⟨x, hx, hxb⟩
          rcases List.mem_cons.mp hx with hxe | hxm
          · rw [hxe] at hxb
            rw [hxb] at hb
            exact absurd rfl hb
          · exact ⟨x, hxm, hxb⟩
        rw [ih (acc ++ [mkEpisodeItem pfx b]) hex2]
        simp

/-- The loop's only error value is `errBadEpisode`. -/
theorem processBlocks_err (pfx : Str) :
    ∀ (blocks : List Str) (acc : List Item) (e : GoErr),
      (processBlocks pfx acc blocks).2 = some e → e = GoErr.badEpisode := by
  intro blocks
  induction blocks with
  | nil => intro acc e h; simp [processBlocks] at h
  | cons b bs ih =>
    intro acc e h
    rw [processBlocks] at h
    by_cases hc : 1 < (reFindAll episodeUrlRe b).length
    · rw [if_pos hc] at h
      simpa using h.symm
    · rw [if_neg hc] at h
      cases hps : (parseSingle b episodeUrlRe).2 with
      | some e2 => rw [hps] at h; simpa using h.symm
      | none =>
        rw [hps] at h
        exact ih _ e h

/-- A successful loop run processed a list with no bad block. -/
theorem processBlocks_ok_items (pfx : Str) :
    ∀ (blocks : List Str) (acc : List Item),
      (processBlocks pfx acc blocks).2 = none →
      (processBlocks pfx acc blocks).1 = acc ++ blocks.map (mkEpisodeItem pfx) := by
  intro blocks
  induction blocks with
  | nil => intro acc _; simp [processBlocks]
  | cons b bs ih =>
    intro acc h
    rw [processBlocks] at h ⊢
    by_cases hc : 1 < (reFindAll episodeUrlRe b).length
    · rw [if_pos hc] at h; simp at h
    · rw [if_neg hc] at h ⊢
      cases hps : (parseSingle b episodeUrlRe).2 with
      | some e2 => rw [hps] at h; simp at h
      | none =>
        rw [hps] at h
        show (processBlocks pfx (acc ++ [mkEpisodeItem pfx b]) bs).1 =
          acc ++ List.map (mkEpisodeItem pfx) (b :: bs)
        rw [ih _ h]
        simp

/-- `addFeedImage` never changes the feed link. -/
theorem addFeedImage_link (page : Page) (f : Feed) : (addFeedImage page f).link = f.link := by
  unfold addFeedImage
  cases page.pictureImg with
  | some st => rfl
  | none =>
    cases h : (parse page.raw programImageRe 4).2 with
    | none => simp [h]
    | some e => simp [h]

/-- `addFeedImage` never changes the item list. -/
theorem addFeedImage_items (page : Page) (f : Feed) : (addFeedImage page f).items = f.items := by
  unfold addFeedImage
  cases page.pictureImg with
  | some st => rfl
  | none =>
    cases h : (parse page.raw programImageRe 4).2 with
    | none => simp [h]
    | some e => simp [h]

/-- `addFeedImage` never changes the title. -/
theorem addFeedImage_title (page : Page) (f : Feed) : (addFeedImage page f).title = f.title := by
  unfold addFeedImage
  cases page.pictureImg with
  | some st => rfl
  | none =>
    cases h : (parse page.raw programImageRe 4).2 with
    | none => simp [h]
    | some e => simp [h]

/-- Under a successful title step and a non-smotrim host, `populateFeed` is the
legacy episode loop over the segmented blocks, started from the feed's current
items. -/
theorem populateFeed_legacy_eq (feed : Feed) (page : Page)
    (h1 : (populateTitle page).2 = none)
    (h2 : hostnameOf feed.link ≠ "smotrim.ru".data) :
    (populateFeed feed page).2 =
      (processBlocks (episodeURLPrefix feed.link) feed.items (findEpisodes page.raw)).2 ∧
    (populateFeed feed page).1.items =
      (processBlocks (episodeURLPrefix feed.link) feed.items (findEpisodes page.raw)).1 ∧
    (populateFeed feed page).1.title = (populateTitle page).1 := by
  have hsite : parseSite (addFeedImage page
      { feed with title := (populateTitle page).1,
                  description := (parseText page selProgramAbout).1 }) =
      hostnameOf feed.link := by
    rw [parseSite, addFeedImage_link]
  simp only [populateFeed]
  rw [h1]
  simp only [Option.isSome_none, Bool.false_eq_true, if_false]
  rw [hsite, if_neg h2, addFeedImage_link, addFeedImage_items]
  refine ⟨rfl, rfl, ?_⟩
  rw [addFeedImage_title]

/-- The title step errs exactly when the redesigned selector yields the empty
string and the legacy `<h2>` pattern does not match at all. -/
theorem populateTitle_err_iff (page : Page) :
    (populateTitle page).2.isSome = true ↔
      ((parseText page selBrandMainTitle).1 = [] ∧
        (parseSingle page.raw programNameRe).2.isSome = true) := by
  unfold populateTitle
  by_cases h : (parseText page selBrandMainTitle).1 = []
  · simp only [h, if_pos, if_true]
    unfold parseProgrammeTitle
    cases h2 : (parseSingle page.raw programNameRe).2 with
    | none => simp [h2, h]
    | some e => simp [h2, h]
  · simp [h]

/-- The smotrim branch never fails. -/
theorem populateSmotrimEpisodes_no_err (feed : Feed) (page : Page) :
    (populateSmotrimEpisodes feed page).2 = none := rfl

/-- C5 (amended): `populateFeed` reads the title via the redesigned selector
first and falls back to the legacy pattern with anchor stripping; it returns
the fatal bad-programme-page error precisely when the redesigned selector
yields the empty string and the legacy pattern fails to match at all.  When
the legacy pattern matches with an empty capture, both strategies yield an
empty title yet the feed proceeds without error; and the episode loop can
still abort construction with the distinct bad-episode error. -/
theorem populateFeed_badProgramme_iff (feed : Feed) (page : Page) :
    (populateFeed feed page).2 = some GoErr.badProgrammePage ↔
      ((parseText page selBrandMainTitle).1 = [] ∧
        (parseSingle page.raw programNameRe).2.isSome = true) := by
  rw [← populateTitle_err_iff]
  constructor
  · intro h
    by_contra hno
    have hnone : (populateTitle page).2 = none := by
      cases ht : (populateTitle page).2 with
      | none => rfl
      | some e => exact absurd (by simp [ht]) hno
    simp only [populateFeed] at h
    rw [hnone] at h
    simp only [Option.isSome_none, Bool.false_eq_true, if_false] at h
    by_cases hs : parseSite (addFeedImage page
        { feed with title := (populateTitle page).1,
                    description := (parseText page selProgramAbout).1 }) = "smotrim.ru".data
    · rw [if_pos hs] at h
      rw [populateSmotrimEpisodes_no_err] at h
      exact Option.noConfusion h
    · rw [if_neg hs] at h
      have := processBlocks_err _ _ _ _ h
      exact GoErr.noConfusion this
  · intro h
    cases ht : (populateTitle page).2 with
    | none => rw [ht] at h; simp at h
    | some e =>
      simp only [populateFeed]
      rw [ht]
      simp

/-- C5 counterexample to the claim as stated: on the page `<h2></h2>` both
title strategies yield the empty string (the legacy pattern matches with an
unset capture), yet `populateFeed` succeeds with an empty title instead of
returning the bad-programme-page error. -/
theorem populateFeed_empty_title_cex :
    (populateFeed { link := "http://www.radiorus.ru/brand/57083/episodes".data }
        { raw := "<h2></h2>".data }).1.title = [] ∧
    (populateFeed { link := "http://www.radiorus.ru/brand/57083/episodes".data }
        { raw := "<h2></h2>".data }).2 = none := by
  refine ⟨by decide, by decide⟩

/-- Witness for `populateFeed_badProgramme_iff` on a page with no title at all. -/
theorem populateFeed_badProgramme_iff_w :
    (populateFeed ({} : Feed) { raw := "no title here".data }).2 =
      some GoErr.badProgrammePage :=
  (populateFeed_badProgramme_iff {} { raw := "no title here".data }).mpr
    ⟨by decide, by decide⟩

/-- C1: on every listing page whose title step succeeds and whose host selects
the legacy grammar, if any segmented episode block contains two or more matches
of the episode-link pattern, `populateFeed` returns the distinct bad-episode
error; the items present afterwards are exactly those of the good blocks
preceding the first bad block, and no block of that contributing prefix has
two or more link matches — in particular the duplicate-link block contributes
no item to `feed.Items`. -/
theorem populateFeed_dup_link_badEpisode (feed : Feed) (page : Page)
    (h1 : (populateTitle page).2 = none)
    (h2 : hostnameOf feed.link ≠ "smotrim.ru".data)
    (h3 : ∃ b ∈ findEpisodes page.raw, 1 < (reFindAll episodeUrlRe b).length) :
    (populateFeed feed page).2 = some GoErr.badEpisode ∧
    (populateFeed feed page).1.items =
      feed.items ++ ((findEpisodes page.raw).takeWhile (fun x => !blockBad x)).map
        (mkEpisodeItem (episodeURLPrefix feed.link)) ∧
    ∀ b ∈ (findEpisodes page.raw).takeWhile (fun x => !blockBad x),
      ¬ 1 < (reFindAll episodeUrlRe b).length := by
  obtain ⟨he, hi, -⟩ := populateFeed_legacy_eq feed page h1 h2
  have hbad : ∃ b ∈ findEpisodes page.raw, blockBad b = true := by
    rcases h3 with ⟨b, hb, hdup⟩
    exact ⟨b, hb, by simp [blockBad, hdup]⟩
  rw [processBlocks_first_bad _ _ _ hbad] at he hi
  refine ⟨he, hi, fun b hb => ?_⟩
  have := List.mem_takeWhile_imp hb
  simp only [Bool.not_eq_true', blockBad, Bool.or_eq_false_iff] at this
  simpa using this.1

/-- Witness for `populateFeed_dup_link_badEpisode` on a concrete page whose only
block has two link matches: the call fails with the bad-episode error and no
item is contributed. -/
theorem populateFeed_dup_link_badEpisode_w :
    (populateTitle pageDup).2 = none ∧
    (populateFeed feedLeg pageDup).2 = some GoErr.badEpisode ∧
    (populateFeed feedLeg pageDup).1.items =
      feedLeg.items ++ ((findEpisodes pageDup.raw).takeWhile (fun x => !blockBad x)).map
        (mkEpisodeItem (episodeURLPrefix feedLeg.link)) :=
  ⟨by decide,
    (populateFeed_dup_link_badEpisode feedLeg pageDup (by decide) (by decide)
      ⟨dupBlock, by decide, by decide⟩).1,
    (populateFeed_dup_link_badEpisode feedLeg pageDup (by decide) (by decide)
      ⟨dupBlock, by decide, by decide⟩).2.1⟩

/-- C2 counterexample to the claim as stated: on a listing page with one
well-formed block followed by a duplicate-link block, `populateFeed` fails with
the bad-episode error but the feed's item list is *not* left unchanged — the
item of the preceding well-formed block has already been added. -/
theorem populateFeed_partial_items_cex :
    (populateFeed feedLeg pageMix).2 = some GoErr.badEpisode ∧
    (populateFeed feedLeg pageMix).1.items ≠ feedLeg.items := by
  refine ⟨by decide, by decide⟩

/-- C2 (amended): `populateFeed` is not atomic on the bad-episode condition:
the call fails with the bad-episode error, but the feed's item list retains
exactly the items of the well-formed blocks preceding the first bad block
(the caller `getFeed` aborts the run via `log.Fatal` on the error, so the
partial list is never emitted as a feed). -/
theorem populateFeed_badEpisode_partialItems (feed : Feed) (page : Page)
    (h1 : (populateTitle page).2 = none)
    (h2 : hostnameOf feed.link ≠ "smotrim.ru".data)
    (h3 : ∃ b ∈ findEpisodes page.raw, 1 < (reFindAll episodeUrlRe b).length) :
    (populateFeed feed page).2 = some GoErr.badEpisode ∧
    (populateFeed feed page).1.items =
      feed.items ++ ((findEpisodes page.raw).takeWhile (fun x => !blockBad x)).map
        (mkEpisodeItem (episodeURLPrefix feed.link)) := by
  obtain ⟨he, hi, -⟩ := populateFeed_legacy_eq feed page h1 h2
  have hbad : ∃ b ∈ findEpisodes page.raw, blockBad b = true := by
    rcases h3 with ⟨b, hb, hdup⟩
    exact ⟨b, hb, by simp [blockBad, hdup]⟩
  rw [processBlocks_first_bad _ _ _ hbad] at he hi
  exact ⟨he, hi⟩

/-- Witness for `populateFeed_badEpisode_partialItems` on the good-then-duplicate
page: the partial item list is the one-item list of the good block. -/
theorem populateFeed_badEpisode_partialItems_w :
    (populateTitle pageMix).2 = none ∧
    (populateFeed feedLeg pageMix).2 = some GoErr.badEpisode ∧
    (populateFeed feedLeg pageMix).1.items =
      feedLeg.items ++ ((findEpisodes pageMix.raw).takeWhile (fun x => !blockBad x)).map
        (mkEpisodeItem (episodeURLPrefix feedLeg.link)) :=
  ⟨by decide,
    (populateFeed_badEpisode_partialItems feedLeg pageMix (by decide) (by decide)
      ⟨dupBlock, by decide, by decide⟩).1,
    (populateFeed_badEpisode_partialItems feedLeg pageMix (by decide) (by decide)
      ⟨dupBlock, by decide, by decide⟩).2⟩

theorem updWhere_congr (fetch : Str → EpPage) :
    ∀ (its : List Item) (p q : Nat → Bool), (∀ i, p i = q i) →
      updWhere fetch p its = updWhere fetch q its := by
  intro its
  induction its with
  | nil => intro p q _; rfl
  | cons it rest ih =>
    intro p q hpq
    simp only [updWhere, hpq 0]
    rw [ih (fun i => p (i + 1)) (fun i => q (i + 1)) (fun i => hpq (i + 1))]

theorem updWhere_none (fetch : Str → EpPage) :
    ∀ (its : List Item) (p : Nat → Bool), (∀ i, p i = false) →
      updWhere fetch p its = its := by
  intro its
  induction its with
  | nil => intro p _; rfl
  | cons it rest ih =>
    intro p hp
    simp only [updWhere, hp 0, Bool.false_eq_true, if_false]
    rw [ih _ (fun i => hp (i + 1))]

theorem updWhere_all (fetch : Str → EpPage) :
    ∀ (its : List Item) (p : Nat → Bool), (∀ i, i < its.length → p i = true) →
      updWhere fetch p its = describeEpisodes fetch its := by
  intro its
  induction its with
  | nil => intro p _; rfl
  | cons it rest ih =>
    intro p hp
    simp only [updWhere, describeEpisodes, List.map_cons, hp 0 (by simp), if_true]
    rw [ih (fun i => p (i + 1)) (fun i hi => hp (i + 1) (by simpa using Nat.succ_lt_succ hi))]
    rfl

/-- Two update passes over disjoint position sets fuse into one pass. -/
theorem updWhere_compose (fetch : Str → EpPage) :
    ∀ (its : List Item) (p q : Nat → Bool), (∀ i, ¬(p i = true ∧ q i = true)) →
      updWhere fetch p (updWhere fetch q its) = updWhere fetch (fun i => p i || q i) its := by
  intro its
  induction its with
  | nil => intro p q _; rfl
  | cons it rest ih =>
    intro p q hdisj
    simp only [updWhere]
    rw [ih (fun i => p (i + 1)) (fun i => q (i + 1)) (fun i => hdisj (i + 1))]
    congr 1
    by_cases hq : q 0 = true
    · have hp : p 0 = false := by
        by_cases hpc : p 0 = true
        · exact absurd ⟨hpc, hq⟩ (hdisj 0)
        · simpa using hpc
      simp [hp, hq]
    · have hq2 : q 0 = false := by simpa using hq
      by_cases hp : p 0 = true
      · simp [hp, hq2]
      · have hp2 : p 0 = false := by simpa using hp
        simp [hp2, hq2]

/-- One episode task is an update pass selecting exactly its own index. -/
theorem epTask_eq_updWhere (fetch : Str → EpPage) :
    ∀ (its : List Item) (j : Nat),
      epTask fetch its j = updWhere fetch (fun i => i == j) its := by
  intro its
  induction its with
  | nil => intro j; rfl
  | cons it rest ih =>
    intro j
    cases j with
    | zero =>
      simp only [epTask, List.getElem?_cons_zero, List.set_cons_zero, updWhere]
      rw [updWhere_none fetch rest (fun i => (i + 1) == 0) (fun i => by simp)]
      simp
    | succ j =>
      have hsh : updWhere fetch (fun i => (i + 1) == (j + 1)) rest =
          updWhere fetch (fun i => i == j) rest :=
        updWhere_congr fetch rest _ _ (fun i => by simp)
      simp only [epTask, List.getElem?_cons_succ, updWhere]
      cases hr : rest[j]? with
      | none =>
        rw [hsh, ← ih j]
        simp [epTask, hr]
      | some it2 =>
        rw [hsh, ← ih j]
        simp [epTask, hr, List.set_cons_succ]

/-- Running any duplicate-free schedule updates exactly the scheduled indices. -/
theorem runSchedule_eq_updWhere (fetch : Str → EpPage) :
    ∀ (sched : List Nat) (its : List Item), sched.Nodup →
      runSchedule fetch sched its = updWhere fetch (fun i => decide (i ∈ sched)) its := by
  intro sched
  induction sched with
  | nil =>
    intro its _
    rw [runSchedule]
    simp only [List.foldl_nil]
    rw [updWhere_none fetch its _ (fun i => by simp)]
  | cons j s ih =>
    intro its hnd
    have hjs : j ∉ s := (List.nodup_cons.mp hnd).1
    have hrun : runSchedule fetch (j :: s) its = runSchedule fetch s (epTask fetch its j) := rfl
    rw [hrun, ih (epTask fetch its j) (List.nodup_cons.mp hnd).2, epTask_eq_updWhere]
    rw [updWhere_compose fetch its _ _ (fun i => by
      rintro ⟨hpi, hqi⟩
      simp only [decide_eq_true_eq] at hpi
      simp only [beq_iff_eq] at hqi
      exact hjs (hqi ▸ hpi))]
    apply updWhere_congr
    intro i
    by_cases h1 : i ∈ s <;> by_cases h2 : i = j <;> simp [h1, h2, List.mem_cons]

/-- Any completion order of the per-episode tasks (a permutation of the item
indices) produces exactly the sequential per-item update. -/
theorem runSchedule_perm (fetch : Str → EpPage) (its : List Item) (sched : List Nat)
    (h : sched.Perm (List.range its.length)) :
    runSchedule fetch sched its = describeEpisodes fetch its := by
  have hnd : sched.Nodup := (List.Perm.nodup_iff h).mpr (List.nodup_range _)
  rw [runSchedule_eq_updWhere fetch sched its hnd]
  apply updWhere_all
  intro i hi
  have : i ∈ sched := (List.Perm.mem_iff h).mpr (List.mem_range.mpr hi)
  simpa using this

/-- C6: on a successfully parsed legacy listing page (fresh feed), `Feed.Items`
lists one item per segmented episode block in the order the blocks appear on
the page; the description-enrichment pass, run under any completion order of
the per-episode tasks, equals the in-order per-item update — it never reorders,
adds or removes items; and each task's update writes only its own item's
description (and a still-unset created date), leaving id, link, title and
enclosure untouched. -/
theorem feedItems_order_and_frame (feed : Feed) (page : Page) (fetch : Str → EpPage)
    (h1 : (populateTitle page).2 = none)
    (h2 : hostnameOf feed.link ≠ "smotrim.ru".data)
    (h3 : (populateFeed feed page).2 = none)
    (h4 : feed.items = []) :
    (populateFeed feed page).1.items =
      (findEpisodes page.raw).map (mkEpisodeItem (episodeURLPrefix feed.link)) ∧
    (∀ sched : List Nat,
      sched.Perm (List.range ((populateFeed feed page).1.items).length) →
      runSchedule fetch sched ((populateFeed feed page).1.items) =
        describeEpisodes fetch ((populateFeed feed page).1.items)) ∧
    (∀ (it : Item) (pg : EpPage),
      (describeEpisode it pg).1.id = it.id ∧
      (describeEpisode it pg).1.link = it.link ∧
      (describeEpisode it pg).1.title = it.title ∧
      (describeEpisode it pg).1.enclosure = it.enclosure ∧
      (it.created ≠ zeroTime → (describeEpisode it pg).1.created = it.created)) := by
  obtain ⟨he, hi, -⟩ := populateFeed_legacy_eq feed page h1 h2
  refine ⟨?_, fun sched hp => runSchedule_perm fetch _ sched hp, fun it pg => ?_⟩
  · rw [he] at h3
    rw [hi, processBlocks_ok_items _ _ _ h3, h4]
    simp
  · unfold describeEpisode
    by_cases hz : it.created = zeroTime
    · exact ⟨by simp [if_pos hz], by simp [if_pos hz], by simp [if_pos hz],
        by simp [if_pos hz], fun hne => absurd hz hne⟩
    · exact ⟨by simp [if_neg hz], by simp [if_neg hz], by simp [if_neg hz],
        by simp [if_neg hz], fun _ => by simp [if_neg hz]⟩

/-- Witness for `feedItems_order_and_frame` on a one-block page with the
single-task schedule. -/
theorem feedItems_order_and_frame_w :
    (populateFeed feedLeg pageGood).2 = none ∧
    (populateFeed feedLeg pageGood).1.items =
      (findEpisodes pageGood.raw).map (mkEpisodeItem (episodeURLPrefix feedLeg.link)) ∧
    runSchedule (fun _ => ({} : EpPage)) [0] ((populateFeed feedLeg pageGood).1.items) =
      describeEpisodes (fun _ => ({} : EpPage)) ((populateFeed feedLeg pageGood).1.items) :=
  ⟨by decide,
    (feedItems_order_and_frame feedLeg pageGood (fun _ => ({} : EpPage))
      (by decide) (by decide) (by decide) (by decide)).1,
    (feedItems_order_and_frame feedLeg pageGood (fun _ => ({} : EpPage))
      (by decide) (by decide) (by decide) (by decide)).2.1 [0] (by decide)⟩
